import Mathlib

/-!
Verification of the LE-PSI cryptographic core against its specification.

The Go sources under `pkg/psi`, `internal/crypto/PSI` and the storage layer are
shallowly embedded below: `uint64` values become `Nat` (with explicit `< 2^64`
bounds where overflow or masking matters), Go `int` becomes `Int` where sign
conversion matters (`ReduceToTreeIndex`), slices become `List`, and fallible
functions return an `Option`/error pair mirroring Go's `(value, error)` result.
Go `float64` arithmetic is modelled as exact rational arithmetic over `ℚ`; the
spots where this matters (worker sizing, the 95 % threshold) are noted at the
corresponding definitions.

The `pkg/LE`, `pkg/matrix` and lattigo ring packages are dependencies that are
not part of the sources under verification; where a claim touches them the
contract stated in the specification is modelled explicitly (marked
`Modelled from the spec:`), and decryption results are abstracted as a
parameter of the detection loop.
-/

/-- A ring polynomial as stored by lattigo: the single-modulus coefficient
slice `Coeffs[0]`, i.e. `D` coefficients in `[0, Q)`. -/
abbrev RPoly := List Nat

/-- `matrix.Vector`: an ordered sequence of ring polynomials. -/
abbrev GoVec := List RPoly

/-- `matrix.Matrix`: rows of ring polynomials. -/
abbrev GoMat := List (List RPoly)

/-- The `LE.LE` parameter structure (fields touched by the claims).
The Go struct also carries the lattigo ring `R` — determined by `(D, Q)`,
with `R.N = D` — and the Gaussian sampler state; neither is compared by any
claim, so they are not stored here. -/
structure LEStruct where
  Q : Nat
  D : Nat
  N : Nat
  Layers : Nat
  M : Nat
  M2 : Nat
  A0NTT : Option GoMat
  A1NTT : Option GoMat
  BNTT : Option GoMat
  GNTT : Option GoMat
deriving DecidableEq, Repr

/-- `SerializableParams` from `internal/crypto/PSI/server.go`: the wire form of
the public parameters. -/
structure SerializableParams where
  PP : List (List Nat)
  Msg : List Nat
  Q : Nat
  D : Nat
  N : Nat
  Layers : Nat
  M : Nat
  M2 : Nat
  A0NTT : List (List (List Nat))
  A1NTT : List (List (List Nat))
  BNTT : List (List (List Nat))
  GNTT : List (List (List Nat))
deriving DecidableEq, Repr

/-- Go's `copy(dst, src)`: overwrites the first `min |dst| |src|` entries of
`dst` with those of `src` and returns the resulting slice contents. -/
def goCopy (dst src : List Nat) : List Nat :=
  src.take (min dst.length src.length) ++ dst.drop (min dst.length src.length)

/-- `r.NewPoly()`: a fresh all-zero polynomial of `d` coefficients. -/
def newPoly (d : Nat) : RPoly := List.replicate d 0

/-- Modelled from the spec: the precondition for lattigo's
`ring.NewRing(D, [Q])` (pkg not under the verified sources) to succeed —
"Validate D ∈ {256, 512, 1024, 2048} and NTT compatibility", where NTT
compatibility is "Q must satisfy NTT preconditions (Q ≡ 1 mod 2D). Setup
fails hard otherwise." -/
def ringOK (d q : Nat) : Bool :=
  decide (d = 256 ∨ d = 512 ∨ d = 1024 ∨ d = 2048) &&
  decide (1 < q) && decide (q % (2 * d) = 1)

/-- The `serializeMatrix` closure in `SerializeParameters`: `nil` matrices
serialize to `nil`; otherwise each polynomial contributes its coefficient
slice. (A `nil` row or `nil`/empty coefficient slice is represented by `[]`,
which serializes to `[]` exactly as the Go guards produce.) -/
def serializeMatrix : Option GoMat → List (List (List Nat))
  | none => []
  | some mat => mat.map (fun row => row.map (fun p => p))

/-- `SerializeParameters` from `internal/crypto/PSI/server.go`. -/
def serializeParameters (pp : GoVec) (msg : RPoly) (le : LEStruct) :
    SerializableParams where
  PP := pp.map (fun p => p)
  Msg := msg
  Q := le.Q
  D := le.D
  N := le.N
  Layers := le.Layers
  M := le.M
  M2 := le.M2
  A0NTT := serializeMatrix le.A0NTT
  A1NTT := serializeMatrix le.A1NTT
  BNTT := serializeMatrix le.BNTT
  GNTT := serializeMatrix le.GNTT

/-- The `deserializeMatrix` closure in `DeserializeParameters`: an empty blob
gives a `nil` matrix; otherwise an `n × m` matrix of fresh zero polynomials is
allocated (`matrix.NewMatrix`, column count taken from the first row) and each
available non-empty coefficient slice is `copy`-ed in. -/
def deserializeMatrix (d : Nat) (serialized : List (List (List Nat))) :
    Option GoMat :=
  if serialized.isEmpty then none
  else
    let n := serialized.length
    let m := (serialized.headD []).length
    some ((List.range n).map (fun i =>
      (List.range m).map (fun j =>
        let src := (serialized.getD i []).getD j []
        if 0 < src.length then goCopy (newPoly d) src else newPoly d)))

/-- `DeserializeParameters` from `internal/crypto/PSI/server.go`, returning
Go's `(pp, msg, le, error)` as an `Option` triple paired with the error. -/
def deserializeParameters (params : SerializableParams) :
    Option (GoVec × RPoly × LEStruct) × Option String :=
  if ringOK params.D params.Q then
    let ppVec := params.PP.map (fun coeffs => goCopy (newPoly params.D) coeffs)
    let msgPoly := goCopy (newPoly params.D) params.Msg
    (some (ppVec, msgPoly,
      { Q := params.Q, D := params.D, N := params.N, Layers := params.Layers
        M := params.M, M2 := params.M2
        A0NTT := deserializeMatrix params.D params.A0NTT
        A1NTT := deserializeMatrix params.D params.A1NTT
        BNTT := deserializeMatrix params.D params.BNTT
        GNTT := deserializeMatrix params.D params.GNTT }), none)
  else (none, some "failed to create ring")

/-- A well-formed matrix component: either absent, or non-empty, rectangular
(every row as wide as the first) with every polynomial of full length `d`. -/
def validMat (d : Nat) : Option GoMat → Bool
  | none => true
  | some mat =>
      !mat.isEmpty &&
      mat.all (fun row =>
        row.length == (mat.headD []).length &&
        row.all (fun p => p.length == d))

/-- A valid public-parameter triple: the ring is constructible from `(D, Q)`
and every coefficient array has the full ring dimension `D`. -/
def validParams (pp : GoVec) (msg : RPoly) (le : LEStruct) : Bool :=
  ringOK le.D le.Q &&
  pp.all (fun p => p.length == le.D) &&
  msg.length == le.D &&
  validMat le.D le.A0NTT && validMat le.D le.A1NTT &&
  validMat le.D le.BNTT && validMat le.D le.GNTT

lemma goCopy_newPoly (d : Nat) (src : List Nat) (h : src.length = d) :
    goCopy (newPoly d) src = src := by
  subst h
  simp [goCopy, newPoly]

lemma copy_entry (d : Nat) (src : List Nat) (h : src.length = d) :
    (if 0 < src.length then goCopy (newPoly d) src else newPoly d) = src := by
  rcases Nat.eq_zero_or_pos src.length with h0 | h0
  · have hs : src = [] := List.eq_nil_of_length_eq_zero h0
    subst hs
    simp [newPoly, ← h]
  · simp [h0, goCopy_newPoly d src h]

lemma deserializeMatrix_serializeMatrix (d : Nat) (mat : Option GoMat)
    (h : validMat d mat = true) :
    deserializeMatrix d (serializeMatrix mat) = mat := by
  cases mat with
  | none => simp [serializeMatrix, deserializeMatrix]
  | some m =>
    have hmap : serializeMatrix (some m) = m := by
      simp [serializeMatrix]
    rw [hmap]
    simp only [validMat, Bool.and_eq_true, List.all_eq_true, Bool.not_eq_true',
      List.isEmpty_eq_false_iff_exists_mem] at h
    obtain ⟨hne, hrows⟩ := h
    have hnonempty : m.isEmpty = false := by
      rcases hne with ⟨x, hx⟩
      cases m with
      | nil => simp at hx
      | cons a l => simp
    rw [deserializeMatrix, if_neg (by simp [hnonempty])]
    simp only [Option.some.injEq]
    apply List.ext_getElem
    · simp
    · intro i h1 h2
      have hi : i < m.length := by simpa using h2
      have hrow := hrows m[i] (List.getElem_mem hi)
      obtain ⟨hrowlen, hpolys⟩ := hrow
      simp only [Bool.and_eq_true, beq_iff_eq] at hrowlen
      simp only [List.getElem_map, List.getElem_range]
      apply List.ext_getElem
      · simpa using hrowlen.symm
      · intro j j1 j2
        have hj : j < m[i].length := by simpa using j2
        simp only [List.getElem_map, List.getElem_range]
        have hgetDi : m.getD i [] = m[i] := List.getD_eq_getElem m [] hi
        have hgetDj : (m[i]).getD j [] = m[i][j] :=
          List.getD_eq_getElem m[i] [] hj
        rw [hgetDi, hgetDj]
        have hplen : (m[i][j]).length = d := by
          have := hpolys m[i][j] (List.getElem_mem hj)
          simpa using this
        exact copy_entry d m[i][j] hplen

lemma map_goCopy_id (d : Nat) (pp : GoVec)
    (h : ∀ p ∈ pp, p.length = d) :
    pp.map (fun coeffs => goCopy (newPoly d) coeffs) = pp := by
  have : ∀ p ∈ pp, goCopy (newPoly d) p = p := fun p hp =>
    goCopy_newPoly d p (h p hp)
  calc pp.map (fun coeffs => goCopy (newPoly d) coeffs)
      = pp.map id := List.map_congr_left (by simpa using this)
    _ = pp := List.map_id pp

/-- Round-trip of the serialization layer on a valid parameter triple. -/
lemma deserialize_serialize_ok (pp : GoVec) (msg : RPoly) (le : LEStruct)
    (h : validParams pp msg le = true) :
    deserializeParameters (serializeParameters pp msg le) =
      (some (pp, msg, le), none) := by
  simp only [validParams, Bool.and_eq_true] at h
  obtain ⟨⟨⟨⟨⟨⟨hring, hpp⟩, hmsg⟩, hA0⟩, hA1⟩, hB⟩, hG⟩ := h
  have hpp' : ∀ p ∈ pp, p.length = le.D := by
    intro p hpme
    have := List.all_eq_true.mp hpp p hpme
    simpa using this
  have hmsg' : msg.length = le.D := by simpa using hmsg
  have hser : (serializeParameters pp msg le).D = le.D := rfl
  simp only [deserializeParameters, serializeParameters, hring, if_true]
  simp only [Prod.mk.injEq, Option.some.injEq, and_true]
  refine ⟨?_, ?_, ?_⟩
  · rw [List.map_map]
    exact map_goCopy_id le.D pp hpp'
  · exact goCopy_newPoly le.D msg hmsg'
  · cases le with
    | mk Q D N Layers M M2 A0 A1 B G =>
      simp only [LEStruct.mk.injEq, true_and]
      exact ⟨deserializeMatrix_serializeMatrix D A0 hA0,
             deserializeMatrix_serializeMatrix D A1 hA1,
             deserializeMatrix_serializeMatrix D B hB,
             deserializeMatrix_serializeMatrix D G hG⟩

/-- The binarization loop of `CorrectnessCheck` (`pkg/psi/helpers.go`): a
coefficient rounds to `1` unless it is `< Q/4` (integer division) or
`> (Q/4)*3`; the loop runs over the `le.R.N = le.D` coefficients. -/
def binaryDecrypted (decrypted : RPoly) (q d : Nat) : RPoly :=
  (List.range d).map (fun i =>
    if decrypted.getD i 0 < q / 4 ∨ q / 4 * 3 < decrypted.getD i 0 then 0
    else 1)

/-- The match-counting loop of `CorrectnessCheck`. -/
def matchCount (binary original : RPoly) (d : Nat) : Nat :=
  ((List.range d).filter (fun i => binary.getD i 0 == original.getD i 0)).length

/-- `CorrectnessCheck` from `pkg/psi/helpers.go`. The final float comparison
`float64(matchCount)/float64(le.R.N) >= 0.95` is modelled as the exact
rational inequality `matchCount / D ≥ 95/100`; for the power-of-two ring
dimensions the library admits (`256 … 2048`) the float division is exact and
`0.95` is more than `5·10⁻⁴` away from every representable quotient, so the
two comparisons agree. -/
def correctnessCheck (decrypted original : RPoly) (le : LEStruct) : Bool :=
  decide (95 * le.D ≤
    100 * matchCount (binaryDecrypted decrypted le.Q le.D) original le.D)

/-- The rounding predicate exactly as the claim words it: "set" iff the
coefficient lies in the OPEN interval `(Q/4, 3Q/4)` (exact rational
endpoints). -/
def claimSetOpen (q c : Nat) : Bool := decide (q < 4 * c) && decide (4 * c < 3 * q)

/-- The correctness check exactly as the claim words it: round by
`claimSetOpen`, accept iff at least 95 % of the `d` rounded coefficients
agree with the stored message. -/
def claimCheckOpen (decrypted original : RPoly) (q d : Nat) : Bool :=
  decide (95 * d ≤ 100 *
    ((List.range d).filter (fun i =>
      (if claimSetOpen q (decrypted.getD i 0) then (1 : Nat) else 0) ==
        original.getD i 0)).length)

/-- The amended rounding predicate: "set" iff the coefficient lies in the
CLOSED interval `[⌊Q/4⌋, 3·⌊Q/4⌋]` (integer division). -/
def claimSetClosed (q c : Nat) : Bool :=
  decide (q / 4 ≤ c) && decide (c ≤ 3 * (q / 4))

/-- The amended correctness check: round by `claimSetClosed`, accept iff at
least 95 % of the `d` rounded coefficients agree with the stored message. -/
def claimCheckClosed (decrypted original : RPoly) (q d : Nat) : Bool :=
  decide (95 * d ≤ 100 *
    ((List.range d).filter (fun i =>
      (if claimSetClosed q (decrypted.getD i 0) then (1 : Nat) else 0) ==
        original.getD i 0)).length)

lemma getD_map_range (f : Nat → Nat) (d i : Nat) (h : i < d) :
    ((List.range d).map f).getD i 0 = f i := by
  rw [List.getD_eq_getElem _ 0 (by simpa using h)]
  simp

lemma binaryDecrypted_getD (decrypted : RPoly) (q d i : Nat) (h : i < d) :
    (binaryDecrypted decrypted q d).getD i 0 =
      if claimSetClosed q (decrypted.getD i 0) then 1 else 0 := by
  unfold binaryDecrypted
  rw [getD_map_range _ d i h]
  rcases Nat.lt_or_ge (decrypted.getD i 0) (q / 4) with hlt | hge
  · rw [if_pos (Or.inl hlt)]
    have : claimSetClosed q (decrypted.getD i 0) = false := by
      simp only [claimSetClosed, Bool.and_eq_false_iff, decide_eq_false_iff_not]
      exact Or.inl (by omega)
    rw [this]
    simp
  · rcases Nat.lt_or_ge (q / 4 * 3) (decrypted.getD i 0) with hgt | hle
    · rw [if_pos (Or.inr hgt)]
      have : claimSetClosed q (decrypted.getD i 0) = false := by
        simp only [claimSetClosed, Bool.and_eq_false_iff,
          decide_eq_false_iff_not]
        exact Or.inr (by omega)
      rw [this]
      simp
    · rw [if_neg (by omega)]
      have : claimSetClosed q (decrypted.getD i 0) = true := by
        simp only [claimSetClosed, Bool.and_eq_true, decide_eq_true_iff]
        omega
      rw [this]
      simp

/-- C1 (amended): for every decrypted polynomial, stored message polynomial
and LE parameter set `(Q, D)`, `CorrectnessCheck` rounds each of the `D`
coefficients of the decrypted polynomial to "set" iff the coefficient lies
in the CLOSED interval `[⌊Q/4⌋, 3·⌊Q/4⌋]` (integer division, not the open
interval `(Q/4, 3Q/4)` of the claim) and to "unset" otherwise, and returns
true iff at least 95 % of the `D` rounded coefficients equal the
corresponding coefficient of the stored message polynomial. -/
theorem correctnessCheck_eq_claimClosed (decrypted original : RPoly)
    (le : LEStruct) :
    correctnessCheck decrypted original le =
      claimCheckClosed decrypted original le.Q le.D := by
  unfold correctnessCheck claimCheckClosed matchCount
  have hf :
      (List.range le.D).filter
        (fun i => (binaryDecrypted decrypted le.Q le.D).getD i 0 ==
          original.getD i 0) =
      (List.range le.D).filter
        (fun i => (if claimSetClosed le.Q (decrypted.getD i 0) then (1 : Nat)
          else 0) == original.getD i 0) := by
    apply List.filter_congr
    intro i hi
    rw [binaryDecrypted_getD decrypted le.Q le.D i (List.mem_range.mp hi)]
  rw [hf]

/-- `ReduceToTreeIndex` from `pkg/psi/helpers.go`. `layers` is a Go `int`;
`uint(layers)` is the two's-complement conversion to a 64-bit unsigned
value, modelled by `(layers % 2^64).toNat`. -/
def reduceToTreeIndex (rawHash : Nat) (layers : Int) : Nat :=
  let bits : Nat := (layers % (2 ^ 64 : Int)).toNat
  let mask : Nat := if bits = 0 ∨ 64 ≤ bits then 2 ^ 64 - 1 else 2 ^ bits - 1
  rawHash &&& mask

lemma reduceToTreeIndex_mask (rawHash : Nat) (h : rawHash < 2 ^ 64)
    (layers : Int) (h1 : 1 ≤ layers) (h2 : layers < 2 ^ 63) :
    reduceToTreeIndex rawHash layers =
      rawHash &&& (2 ^ layers.toNat - 1) := by
  have hmod : layers % (2 ^ 64 : Int) = layers :=
    Int.emod_eq_of_lt (by omega) (by omega)
  simp only [reduceToTreeIndex, hmod]
  rcases Nat.lt_or_ge layers.toNat 64 with hlt | hge
  · rw [if_neg (by omega)]
  · rw [if_pos (Or.inr hge)]
    have h2pow : (2 : Nat) ^ 64 ≤ 2 ^ layers.toNat :=
      Nat.pow_le_pow_right (by omega) hge
    rw [Nat.and_pow_two_sub_one_eq_mod, Nat.and_pow_two_sub_one_eq_mod,
      Nat.mod_eq_of_lt h, Nat.mod_eq_of_lt (lt_of_lt_of_le h h2pow)]

/-- The `Layers` computation of `SetupLEParameters`
(`pkg/psi/parameters.go`): `int(math.Ceil(math.Log2(16 * float64(size))))`,
modelled as the exact real ceiling `⌈log₂(16·size)⌉ = Nat.clog 2 (16·size)`
(for `size ≥ 1`; exact because `float64` holds any realistic `16·size`
exactly and `log2` is computed far from integer boundaries). -/
def setupLayers (size : Nat) : Nat := Nat.clog 2 (16 * size)

/-- `SetupLEParameters` from `pkg/psi/parameters.go` with its hard-coded
constants `Q = 180143985094819841`, `D = 256`, `N = 4`, `qBits = 58`,
`M = N·qBits`, `M2 = 2·M`. Modelled from the spec: `LE.Setup` (pkg/LE, not
under the verified sources) is "infallible given a valid size" and its
sampled public matrices are not inspected by any claim, so they are left
absent here; with the hard-coded valid constants the error paths of the Go
function are unreachable and the function is modelled as total. -/
def setupLEParameters (size : Nat) : LEStruct where
  Q := 180143985094819841
  D := 256
  N := 4
  Layers := setupLayers size
  M := 4 * 58
  M2 := 2 * (4 * 58)
  A0NTT := none
  A1NTT := none
  BNTT := none
  GNTT := none

/-- `ServerInitContext` from `internal/crypto/PSI/server.go`. The
`PrivateKeys` and `WitnessVectors1/2` fields are filled by `LE.KeyGen` and
`LE.WitGen` (pkg/LE, not under the verified sources); no claim inspects
them, and decryption is abstracted as a parameter of the detection loop, so
they are not stored here. -/
structure ServerInitContext where
  publicParams : GoVec
  message : RPoly
  leParams : LEStruct
  treeIndices : List Nat
  originalHashes : List Nat
  dbPath : String
deriving DecidableEq

/-- `ServerInitialize` as in src/unnamed/part_011 (the copy with the
in-RAM tree optimization; the `internal/crypto/PSI/server.go` copy is the
same function without the `LE.LoadTreeFromDB` step, i.e. it behaves as
`loadTreeOK = true`). Effects of the environment are explicit parameters:
`openOK` is whether `sql.Open` succeeds, `initTreeOK` whether
`storage.InitializeTreeDB` succeeds (the Go code only LOGS a warning when
it fails and carries on), `loadTreeOK` whether `LE.LoadTreeFromDB`
succeeds (pkg/LE, not under the verified sources; on failure the Go code
returns `nil, fmt.Errorf("failed to load tree into memory: %w", err)`),
and `pp`/`msg` are the digest read back from the tree and the random
binary message polynomial (produced via pkg/LE). The result mirrors Go's
`(*ServerInitContext, error)` pair. -/
def serverInitialize (X : List Nat) (treepath : String)
    (openOK initTreeOK loadTreeOK : Bool) (pp : GoVec) (msg : RPoly) :
    Option ServerInitContext × Option String :=
  if X.length = 0 then (none, some "server set is empty")
  else
    let leParams := setupLEParameters X.length
    if openOK = false then (none, some "open tree db")
    else
      -- a failing InitializeTreeDB (initTreeOK = false) only logs a warning
      let hashedClient :=
        X.map (fun x => reduceToTreeIndex x (leParams.Layers : Int))
      if loadTreeOK = false then
        (none, some "failed to load tree into memory")
      else
        (some { publicParams := pp, message := msg, leParams := leParams
                treeIndices := hashedClient, originalHashes := X
                dbPath := treepath }, none)

/-- `Cxtx` from `pkg/psi/helpers.go`: a client ciphertext. -/
structure Cxtx where
  C0 : List GoVec
  C1 : List GoVec
  C : GoVec
  D : RPoly
deriving DecidableEq

/-- The state threaded through the detection loop: the match slice `Z` and
the key set of `intersectionMap` (the indices `k` already matched). -/
structure DetectAcc where
  Z : List Nat
  seen : List Nat
deriving DecidableEq

/-- The body of a detection worker for one work item `(j, k)`
(`DetectIntersectionWithContext`): decrypt ciphertext `j` against server
element `k` (`dec j k` abstracts the result of `LE.Dec`, pkg/LE not being
under the verified sources), run `CorrectnessCheck` against the stored
message, and on success append `OriginalHashes[k]` unless `intersectionMap`
already marks index `k`. -/
def detectStep (hashes : List Nat) (msg : RPoly) (le : LEStruct)
    (dec : Nat → Nat → RPoly) (acc : DetectAcc) (jk : Nat × Nat) :
    DetectAcc :=
  if correctnessCheck (dec jk.1 jk.2) msg le then
    if jk.2 ∈ acc.seen then acc
    else { Z := acc.Z ++ [hashes.getD jk.2 0], seen := jk.2 :: acc.seen }
  else acc

/-- The work items of the detection loop: all pairs `(j, k)` with
`j ∈ [0, |Y|)` and `k ∈ [0, |X|)`, in the dispatch order of the Go loops. -/
def workPairs (ny nx : Nat) : List (Nat × Nat) :=
  (List.range ny).flatMap (fun j => (List.range nx).map (fun k => (j, k)))

/-- `DetectIntersectionWithContext` from `internal/crypto/PSI/server.go`.
The Go loop distributes the work items over a worker pool; the final match
slice is deterministic up to order because deduplication is keyed on `k`
under a single mutex, and it is modelled here by the sequential fold in
dispatch order. Mirrors Go's `([]uint64, error)` pair; the function ends in
`return Z, nil`, so the error is structurally `nil`. -/
def detectIntersectionWithContext (ctx : ServerInitContext)
    (clientCiphertexts : List Cxtx) (dec : Nat → Nat → RPoly) :
    List Nat × Option String :=
  let pairs := workPairs clientCiphertexts.length ctx.originalHashes.length
  let acc := pairs.foldl
    (detectStep ctx.originalHashes ctx.message ctx.leParams dec) ⟨[], []⟩
  (acc.Z, none)

/-- `CalculateOptimalWorkers` from `pkg/psi` (src/unnamed/part_009, and the
identical `calculateOptimalWorkers` in part_010). Go `float64` arithmetic is
modelled as exact rational arithmetic: `availableRAM_GB = 117`,
`memPerRecord_GB = 0.035 = 35/1000`, `safetyMargin = 1.15 = 115/100`; the
`int(...)` conversions truncate nonnegative values, i.e. take the floor, and
`int(1.5 * math.Sqrt(float64(s)))` equals
`⌊1.5·√s⌋ = ⌊√(9s/4)⌋ = Nat.sqrt (9*s/4)` (floor of a real square root of a
natural truncates through `⌊9s/4⌋`). At every `int` conversion and
comparison the exact value is far enough from the decision boundary that
correctly-rounded `float64` evaluation agrees. -/
def calculateOptimalWorkers (datasetSize : Nat) : Int :=
  let hardwareLimit : Int := 48
  let practicalMinimum : Int := 8
  let estimatedMemory : ℚ := (datasetSize : ℚ) * (35 / 1000) * (115 / 100)
  let memoryLimit : Int :=
    if (117 : ℚ) * (6 / 10) < estimatedMemory then
      Int.floor ((117 : ℚ) * (85 / 100) / estimatedMemory * 48)
    else hardwareLimit
  let cacheLimit : Int :=
    if 100 < datasetSize then
      let c0 : Int := (Nat.sqrt (9 * datasetSize / 4) : Int)
      let c1 : Int := if hardwareLimit < c0 then hardwareLimit else c0
      if c1 < 16 then 16 else c1
    else hardwareLimit
  let optimal0 : Int := memoryLimit
  let optimal1 : Int := if cacheLimit < optimal0 then cacheLimit else optimal0
  let optimal2 : Int :=
    if hardwareLimit < optimal1 then hardwareLimit else optimal1
  if optimal2 < practicalMinimum then practicalMinimum else optimal2

/-- The worker-count formula exactly as the claim words it:
`clamp(min(memory_limit, cache_limit, hardware_cores), 8, hardware_cores)`
with `hardware_cores = 48`, `estimated_RAM_GB = |X|·0.035·1.15`,
`memory_limit = 48` when `estimated_RAM_GB ≤ 0.6·117` and
`⌊(117·0.85)/estimated_RAM_GB·48⌋` otherwise, and `cache_limit = 48` when
`|X| ≤ 100` and `clamp(⌊1.5·√|X|⌋, 16, 48)` otherwise (truncation commutes
with the clamp at the integer bounds 16 and 48). -/
def claimWorkers (size : Nat) : Int :=
  let est : ℚ := (size : ℚ) * (35 / 1000) * (115 / 100)
  let memoryLimit : Int :=
    if est ≤ (6 / 10 : ℚ) * 117 then 48
    else Int.floor ((117 : ℚ) * (85 / 100) / est * 48)
  let cacheLimit : Int :=
    if size ≤ 100 then 48
    else max 16 (min 48 ((Nat.sqrt (9 * size / 4) : Int)))
  max 8 (min (min (min memoryLimit cacheLimit) 48) 48)

/-- `VerboseMode` from `pkg/psi/helpers.go`:
`os.Getenv("PSI_VERBOSE") == "false"`. The process environment is a lookup
function returning `""` for unset variables, as `os.Getenv` does. -/
def verboseMode (env : String → String) : Bool :=
  env "PSI_VERBOSE" == "false"

/-- `CorrectnessCheck` with its logging side effect made explicit: the
returned list holds the match-rate line that `fmt.Printf` emits when
`VerboseMode` is set (`pkg/psi/helpers.go` lines 57-61); it is the only
log output of the function, and `PSI_VERBOSE` is the only environment
variable the core consults. -/
def correctnessCheckLogged (env : String → String)
    (decrypted original : RPoly) (le : LEStruct) : Bool × List String :=
  let result := correctnessCheck decrypted original le
  let logs : List String := if verboseMode env then ["Match rate"] else []
  (result, logs)

lemma workPairs_snd_lt (ny nx : Nat) :
    ∀ p ∈ workPairs ny nx, p.2 < nx := by
  intro p hp
  simp only [workPairs, List.mem_flatMap, List.mem_map, List.mem_range] at hp
  obtain ⟨j, _, k, hk, hpk⟩ := hp
  subst hpk
  exact hk

lemma detect_foldl_invariant (hashes : List Nat) (msg : RPoly)
    (le : LEStruct) (dec : Nat → Nat → RPoly) :
    ∀ (pairs : List (Nat × Nat)) (acc : DetectAcc),
      (∀ p ∈ pairs, p.2 < hashes.length) →
      acc.Z = acc.seen.reverse.map (fun k => hashes.getD k 0) →
      acc.seen.Nodup →
      (∀ k ∈ acc.seen, k < hashes.length) →
      (pairs.foldl (detectStep hashes msg le dec) acc).Z =
        (pairs.foldl (detectStep hashes msg le dec) acc).seen.reverse.map
          (fun k => hashes.getD k 0) ∧
      (pairs.foldl (detectStep hashes msg le dec) acc).seen.Nodup ∧
      ∀ k ∈ (pairs.foldl (detectStep hashes msg le dec) acc).seen,
        k < hashes.length := by
  intro pairs
  induction pairs with
  | nil =>
    intro acc _ hZ hnd hlt
    exact ⟨hZ, hnd, hlt⟩
  | cons p ps ih =>
    intro acc hps hZ hnd hlt
    rw [List.foldl_cons]
    apply ih
    · intro p' hp'
      exact hps p' (List.mem_cons_of_mem p hp')
    all_goals {
      unfold detectStep
      rcases hok : correctnessCheck (dec p.1 p.2) msg le with _ | _
      · simp only [Bool.false_eq_true, if_false]
        first
          | exact hZ
          | exact hnd
          | exact hlt
      · simp only [if_true]
        by_cases hmem : p.2 ∈ acc.seen
        · simp only [hmem, if_true]
          first
            | exact hZ
            | exact hnd
            | exact hlt
        · simp only [hmem, if_false]
          first
            | (show acc.Z ++ [hashes.getD p.2 0] =
                (p.2 :: acc.seen).reverse.map (fun k => hashes.getD k 0)
               rw [List.reverse_cons, List.map_append, ← hZ]
               simp)
            | exact List.nodup_cons.mpr ⟨hmem, hnd⟩
            | (intro k hk
               rcases List.mem_cons.mp hk with hk0 | hk1
               · subst hk0
                 exact hps p (List.mem_cons_self p ps)
               · exact hlt k hk1)
    }

lemma setupLayers_one : setupLayers 1 = 4 := by
  unfold setupLayers
  have h1 : Nat.clog 2 (16 * 1) ≤ 4 :=
    (Nat.le_pow_iff_clog_le (by norm_num)).mp (by norm_num)
  have h2 : 3 < Nat.clog 2 (16 * 1) :=
    (Nat.pow_lt_iff_lt_clog (by norm_num)).mp (by norm_num)
  omega

/-- A minimal LE parameter set (`Q = 8`, ring dimension `D = 1`) for
concrete evaluations of `CorrectnessCheck`. -/
def leTiny : LEStruct where
  Q := 8
  D := 1
  N := 1
  Layers := 0
  M := 1
  M2 := 2
  A0NTT := none
  A1NTT := none
  BNTT := none
  GNTT := none

/-- C1 (counterexample): at `Q = 8`, `D = 1` the decrypted coefficient
`2 = Q/4` sits on the interval boundary: the code rounds it to "set" and
accepts against message `[1]`, while the claim's open-interval rounding
`(Q/4, 3Q/4)` makes it "unset" and rejects. -/
theorem correctnessCheck_open_interval_refuted :
    correctnessCheck [2] [1] leTiny = true ∧
    claimCheckOpen [2] [1] leTiny.Q leTiny.D = false := by
  decide

/-- C2 (confirmed): for every valid public-parameter triple,
`DeserializeParameters ∘ SerializeParameters` returns a nil error and
reproduces the digest vector, message polynomial and the `Q`, `D`, `N`,
`Layers`, `M`, `M2` fields and four public matrices bit-exactly. -/
theorem deserialize_serialize_roundtrip (pp : GoVec) (msg : RPoly)
    (le : LEStruct) (h : validParams pp msg le = true) :
    deserializeParameters (serializeParameters pp msg le) =
      (some (pp, msg, le), none) :=
  deserialize_serialize_ok pp msg le h

/-- A small valid parameter triple (`D = 256`, `Q = 513 ≡ 1 mod 512`) for
witnessing the round-trip. -/
def leEx : LEStruct where
  Q := 513
  D := 256
  N := 1
  Layers := 4
  M := 2
  M2 := 4
  A0NTT := some [[List.replicate 256 1, List.replicate 256 2]]
  A1NTT := some [[List.replicate 256 3]]
  BNTT := some [[List.replicate 256 4, List.replicate 256 5]]
  GNTT := some [[List.replicate 256 6]]

set_option maxRecDepth 20000 in
theorem deserialize_serialize_roundtrip_witness :
    validParams [List.replicate 256 7] (List.replicate 256 1) leEx = true ∧
    deserializeParameters
        (serializeParameters [List.replicate 256 7] (List.replicate 256 1)
          leEx) =
      (some ([List.replicate 256 7], List.replicate 256 1, leEx), none) :=
  ⟨by decide,
   deserialize_serialize_roundtrip [List.replicate 256 7]
     (List.replicate 256 1) leEx (by decide)⟩

/-- C3 (counterexample): with a non-empty input set and a database that
opens fine but whose tree tables cannot be created
(`initTreeOK = false`), `ServerInitialize` still returns a context and a
nil error — `storage.InitializeTreeDB` failure is only logged as a
warning, contradicting the claim that it is an error case. -/
theorem serverInitialize_initTreeDB_failure_not_error :
    (serverInitialize [1] "tree.db" true false true [] []).2 = none ∧
    (serverInitialize [1] "tree.db" true false true [] []).1 ≠ none := by
  decide

/-- C3 (amended): `ServerInitialize` returns an error if and only if the
input fingerprint set is empty, or the witness-store database cannot be
opened, or (in the part_011 copy) the witness tree cannot be loaded into
RAM by `LE.LoadTreeFromDB`; a failure to create the tree tables is only
logged as a warning and does not produce an error. It never returns a
partially-constructed context: the context is `none` exactly when the
error is non-nil. -/
theorem serverInitialize_error_iff (X : List Nat) (treepath : String)
    (openOK initTreeOK loadTreeOK : Bool) (pp : GoVec) (msg : RPoly) :
    ((serverInitialize X treepath openOK initTreeOK loadTreeOK pp msg).2 ≠
        none ↔
      (X = [] ∨ openOK = false ∨ loadTreeOK = false)) ∧
    ((serverInitialize X treepath openOK initTreeOK loadTreeOK pp msg).1 =
        none ↔
      (serverInitialize X treepath openOK initTreeOK loadTreeOK pp msg).2 ≠
        none) := by
  unfold serverInitialize
  rcases X with _ | ⟨x, xs⟩
  · simp
  · rcases openOK with _ | _ <;> rcases loadTreeOK with _ | _ <;> simp

/-- A tiny server context with duplicate stored fingerprints, as
`ServerInitialize` produces for the input set `[42, 42]`. -/
def ctxDup : ServerInitContext where
  publicParams := []
  message := [1]
  leParams := leTiny
  treeIndices := [0, 0]
  originalHashes := [42, 42]
  dbPath := "tree.db"

/-- A client ciphertext whose (abstracted) decryption yields `[4]`, which
`CorrectnessCheck` accepts against the message `[1]` under `leTiny`. -/
def ctMatch : Cxtx where
  C0 := []
  C1 := []
  C := []
  D := [4]

/-- The abstracted decryption result for every work item. -/
def decMatch : Nat → Nat → RPoly := fun _ _ => [4]

/-- C4 (counterexample): deduplication in the detection loop is keyed on
the server INDEX `k`, not on the fingerprint value: with the same
fingerprint 42 stored at two indices and one matching client ciphertext,
the returned match list is `[42, 42]` — a duplicate value. -/
theorem detectIntersection_duplicate_values :
    (detectIntersectionWithContext ctxDup [ctMatch] decMatch).1 =
      [42, 42] ∧
    ¬ (detectIntersectionWithContext ctxDup [ctMatch] decMatch).1.Nodup := by
  decide

/-- C4 (amended): matches are deduplicated per server index, so whenever
the stored server fingerprints are pairwise distinct — in particular
regardless of how many client ciphertexts decrypt successfully against the
same server element — the match list returned by
`DetectIntersectionWithContext` contains no duplicate fingerprint values. -/
theorem detectIntersection_nodup (ctx : ServerInitContext)
    (cts : List Cxtx) (dec : Nat → Nat → RPoly)
    (h : ctx.originalHashes.Nodup) :
    (detectIntersectionWithContext ctx cts dec).1.Nodup := by
  simp only [detectIntersectionWithContext]
  obtain ⟨hZ, hnd, hlt⟩ :=
    detect_foldl_invariant ctx.originalHashes ctx.message ctx.leParams dec
      (workPairs cts.length ctx.originalHashes.length) ⟨[], []⟩
      (workPairs_snd_lt cts.length ctx.originalHashes.length)
      rfl List.nodup_nil (by intro k hk; simp at hk)
  rw [hZ]
  apply List.Nodup.map_on
  · intro x hx y hy hfe
    have hxl : x < ctx.originalHashes.length :=
      hlt x (List.mem_reverse.mp hx)
    have hyl : y < ctx.originalHashes.length :=
      hlt y (List.mem_reverse.mp hy)
    rw [List.getD_eq_getElem _ 0 hxl, List.getD_eq_getElem _ 0 hyl] at hfe
    exact (List.Nodup.getElem_inj_iff h).mp hfe
  · exact List.nodup_reverse.mpr hnd

/-- A context with distinct stored fingerprints for the witness. -/
def ctxDistinct : ServerInitContext where
  publicParams := []
  message := [1]
  leParams := leTiny
  treeIndices := [0, 1]
  originalHashes := [41, 42]
  dbPath := "tree.db"

theorem detectIntersection_nodup_witness :
    ctxDistinct.originalHashes.Nodup ∧
    (detectIntersectionWithContext ctxDistinct [ctMatch] decMatch).1.Nodup :=
  ⟨by decide,
   detectIntersection_nodup ctxDistinct [ctMatch] decMatch (by decide)⟩

/-- C5 (confirmed): for every server set size `|X| ≥ 1`,
`SetupLEParameters` sets `Layers` to `⌈log₂(16·|X|)⌉`, characterized as the
least `L` with `2^L ≥ 16·|X|` — so `numSlots = 2^Layers ≥ 16·|X|` — and for
`|X| = 1` it sets `Layers = 4`. -/
theorem setupLEParameters_layers (size : Nat) (h : 1 ≤ size) :
    (setupLEParameters size).Layers = setupLayers size ∧
    16 * size ≤ 2 ^ (setupLEParameters size).Layers ∧
    (∀ L < (setupLEParameters size).Layers, 2 ^ L < 16 * size) ∧
    (setupLEParameters 1).Layers = 4 := by
  refine ⟨rfl, ?_, ?_, setupLayers_one⟩
  · exact Nat.le_pow_clog (by norm_num) (16 * size)
  · intro L hL
    exact (Nat.pow_lt_iff_lt_clog (by norm_num)).mpr hL

theorem setupLEParameters_layers_witness :
    1 ≤ 3 ∧ 16 * 3 ≤ 2 ^ (setupLEParameters 3).Layers :=
  ⟨by decide, (setupLEParameters_layers 3 (by decide)).2.1⟩

lemma reduceToTreeIndex_allones (rawHash : Nat) (h : rawHash < 2 ^ 64)
    (layers : Int)
    (hb : (layers % (2 ^ 64 : Int)).toNat = 0 ∨
      64 ≤ (layers % (2 ^ 64 : Int)).toNat) :
    reduceToTreeIndex rawHash layers = rawHash := by
  simp only [reduceToTreeIndex, if_pos hb]
  rw [Nat.and_pow_two_sub_one_eq_mod, Nat.mod_eq_of_lt h]

lemma setupLayers_pos (len : Nat) (hlen : 1 ≤ len) : 1 ≤ setupLayers len := by
  have h4 : setupLayers 1 ≤ setupLayers len :=
    Nat.clog_mono_right 2 (by omega)
  rw [setupLayers_one] at h4
  omega

lemma setupLayers_small (len : Nat) (hlen : len < 2 ^ 63) :
    setupLayers len < 2 ^ 63 := by
  have h67 : setupLayers len ≤ 67 := by
    apply (Nat.le_pow_iff_clog_le (by norm_num)).mp
    calc 16 * len ≤ 16 * 2 ^ 63 := by omega
      _ ≤ 2 ^ 67 := by norm_num
  omega

/-- C6 (amended): `ReduceToTreeIndex(rawHash, layers)` equals
`rawHash & (2^layers − 1)` for every `layers ≥ 1` in the `int64` range (not
for EVERY layers value: at `layers = 0` the mask degenerates to all
one-bits, see the counterexample), and correspondingly the context returned
by `ServerInitialize` stores `TreeIndices[i] = X[i] & (2^Layers − 1)` — the
low `Layers` bits of the 64-bit fingerprint — since `Layers ≥ 4` there. -/
theorem reduceToTreeIndex_low_bits :
    (∀ rawHash : Nat, rawHash < 2 ^ 64 → ∀ layers : Int, 1 ≤ layers →
      layers < 2 ^ 63 →
      reduceToTreeIndex rawHash layers = rawHash &&& (2 ^ layers.toNat - 1)) ∧
    (∀ (X : List Nat) (treepath : String)
      (openOK initTreeOK loadTreeOK : Bool)
      (pp : GoVec) (msg : RPoly) (ctx : ServerInitContext),
      (serverInitialize X treepath openOK initTreeOK loadTreeOK pp msg).1 =
        some ctx →
      X.length < 2 ^ 63 →
      ∀ i, i < X.length → X.getD i 0 < 2 ^ 64 →
      ctx.treeIndices.getD i 0 =
        X.getD i 0 &&& (2 ^ setupLayers X.length - 1)) := by
  constructor
  · exact reduceToTreeIndex_mask
  · intro X treepath openOK initTreeOK loadTreeOK pp msg ctx hctx hlen i hi hX
    have hXne : ¬ X.length = 0 := by omega
    rcases openOK with _ | _
    · rw [serverInitialize, if_neg hXne, if_pos rfl] at hctx
      exact absurd hctx (by simp)
    · rcases loadTreeOK with _ | _
      · rw [serverInitialize, if_neg hXne, if_neg (by simp),
          if_pos rfl] at hctx
        exact absurd hctx (by simp)
      · rw [serverInitialize, if_neg hXne, if_neg (by simp),
          if_neg (by simp)] at hctx
        have hctx' :
            ({ publicParams := pp, message := msg,
               leParams := setupLEParameters X.length,
               treeIndices := X.map (fun x => reduceToTreeIndex x
                 ((setupLEParameters X.length).Layers : Int)),
               originalHashes := X, dbPath := treepath } :
              ServerInitContext) = ctx :=
          (Option.some.injEq _ _).mp hctx
        subst hctx'
        show List.getD (X.map (fun x => reduceToTreeIndex x
            ((setupLEParameters X.length).Layers : Int))) i 0 =
          X.getD i 0 &&& (2 ^ setupLayers X.length - 1)
        rw [List.getD_eq_getElem (X.map (fun x => reduceToTreeIndex x
            ((setupLEParameters X.length).Layers : Int))) 0
            (by simpa using hi)]
        rw [List.getD_eq_getElem X 0 hi] at hX ⊢
        simp only [List.getElem_map]
        have hmask := reduceToTreeIndex_mask (X.get ⟨i, hi⟩) hX
          ((setupLayers X.length : Nat) : Int)
          (by exact_mod_cast setupLayers_pos X.length (by omega))
          (by exact_mod_cast setupLayers_small X.length hlen)
        simpa [setupLEParameters] using hmask

/-- C6 (counterexample): at `layers = 0` the code's mask degenerates to all
64 one-bits, so `ReduceToTreeIndex(1, 0) = 1`, while the claimed identity
`rawHash & (2^layers − 1)` gives `1 & (2^0 − 1) = 0` — the "for every
layers value" equivalence of the claim fails. -/
theorem reduceToTreeIndex_zero_layers_refuted :
    reduceToTreeIndex 1 0 ≠ 1 &&& (2 ^ (Int.toNat 0) - 1) := by
  decide

/-- The context `ServerInitialize [7] "tree.db"` produces (with successful
store open and table creation, and empty digest/message placeholders). -/
def ctxSeven : ServerInitContext where
  publicParams := []
  message := []
  leParams := setupLEParameters 1
  treeIndices := [reduceToTreeIndex 7 ((setupLayers 1 : Nat) : Int)]
  originalHashes := [7]
  dbPath := "tree.db"

theorem reduceToTreeIndex_low_bits_witness :
    reduceToTreeIndex 5 3 = 5 &&& (2 ^ Int.toNat 3 - 1) ∧
    ctxSeven.treeIndices.getD 0 0 =
      List.getD [7] 0 0 &&& (2 ^ setupLayers (List.length [7]) - 1) :=
  ⟨reduceToTreeIndex_low_bits.1 5 (by decide) 3 (by decide) (by decide),
   reduceToTreeIndex_low_bits.2 [7] "tree.db" true true true [] [] ctxSeven
     rfl (by decide) 0 (by decide) (by decide)⟩

lemma if_lt_keep_left (x y : Int) : (if x < y then x else y) = min x y := by
  rcases lt_or_ge x y with h | h
  · rw [if_pos h, min_eq_left (le_of_lt h)]
  · rw [if_neg (not_lt.mpr h), min_eq_right h]

lemma if_lt_keep_right (x y : Int) : (if x < y then y else x) = max x y := by
  rcases lt_or_ge x y with h | h
  · rw [if_pos h, max_eq_right (le_of_lt h)]
  · rw [if_neg (not_lt.mpr h), max_eq_left h]

/-- C7 (confirmed): for every dataset size, `CalculateOptimalWorkers`
returns exactly the claim's formula
`clamp(min(memory_limit, cache_limit, hardware_cores), 8, hardware_cores)`
with `hardware_cores = 48`, `estimated_RAM_GB = |X|·0.035·1.15`,
`memory_limit = 48` when `estimated_RAM_GB ≤ 0.6·117` and
`⌊(117·0.85)/estimated_RAM_GB·48⌋` otherwise, and `cache_limit = 48` when
`|X| ≤ 100` and `clamp(⌊1.5·√|X|⌋, 16, 48)` otherwise. -/
theorem calculateOptimalWorkers_eq_claim (size : Nat) :
    calculateOptimalWorkers size = claimWorkers size := by
  simp only [calculateOptimalWorkers, claimWorkers]
  set est : ℚ := (size : ℚ) * (35 / 1000) * (115 / 100) with hest
  set F : Int := Int.floor ((117 : ℚ) * (85 / 100) / est * 48) with hF
  set S : Int := (Nat.sqrt (9 * size / 4) : Int) with hS
  by_cases hmem : (117 : ℚ) * (6 / 10) < est
  · have hmem' : ¬ (est ≤ 6 / 10 * 117) := not_le.mpr (by linarith)
    rw [if_pos hmem, if_neg hmem']
    by_cases hc : 100 < size
    · have hc' : ¬ (size ≤ 100) := by omega
      rw [if_pos hc, if_neg hc']
      simp only [if_lt_keep_left, if_lt_keep_right]
      omega
    · have hc' : size ≤ 100 := by omega
      rw [if_neg hc, if_pos hc']
      simp only [if_lt_keep_left, if_lt_keep_right]
      omega
  · have hmem' : est ≤ 6 / 10 * 117 := by linarith [not_lt.mp hmem]
    rw [if_neg hmem, if_pos hmem']
    by_cases hc : 100 < size
    · have hc' : ¬ (size ≤ 100) := by omega
      rw [if_pos hc, if_neg hc']
      simp only [if_lt_keep_left, if_lt_keep_right]
      omega
    · have hc' : size ≤ 100 := by omega
      rw [if_neg hc, if_pos hc']
      simp only [if_lt_keep_left, if_lt_keep_right]
      omega

/-- The process environment with `PSI_VERBOSE` set to the string "false"
(every other variable unset, i.e. `""`). -/
def envVerboseFalse : String → String :=
  fun name => if name == "PSI_VERBOSE" then "false" else ""

/-- The process environment with no variables set. -/
def envUnset : String → String := fun _ => ""

/-- C8 (code bug): `VerboseMode` is `os.Getenv("PSI_VERBOSE") == "false"`
and the match-rate log is printed `if VerboseMode`, so setting
`PSI_VERBOSE=false` EMITS the per-ciphertext decryption log and leaving it
unset suppresses it — the inverse of the claim and of the code's own
comment "Set PSI_VERBOSE=false to suppress". (The claim's other half
holds: `PSI_VERBOSE` is the only environment variable the core consults.) -/
theorem psiVerboseFalse_emits_logs :
    (correctnessCheckLogged envVerboseFalse [2] [1] leTiny).2 =
      ["Match rate"] ∧
    (correctnessCheckLogged envUnset [2] [1] leTiny).2 = [] := by
  decide

/-- C9 (confirmed): `DetectIntersectionWithContext` never reports failure —
for every server context and slice of client ciphertexts its error result
is nil (the function ends in `return Z, nil` and no other return exists),
and for an empty ciphertext slice it returns the empty match list. -/
theorem detectIntersection_never_errors (ctx : ServerInitContext)
    (cts : List Cxtx) (dec : Nat → Nat → RPoly) :
    (detectIntersectionWithContext ctx cts dec).2 = none ∧
    (detectIntersectionWithContext ctx [] dec).1 = [] :=
  ⟨rfl, rfl⟩

/-- C10 (confirmed): for `layers = 0` — and for every `layers ≥ 64` in the
`int64` range — the mask in `ReduceToTreeIndex` becomes all 64 one-bits,
so the function returns `rawHash` unchanged; in particular at `layers = 0`
it does not return 0. -/
theorem reduceToTreeIndex_degenerate_layers (rawHash : Nat)
    (h : rawHash < 2 ^ 64) :
    reduceToTreeIndex rawHash 0 = rawHash ∧
    ∀ layers : Int, 64 ≤ layers → layers < 2 ^ 63 →
      reduceToTreeIndex rawHash layers = rawHash := by
  constructor
  · exact reduceToTreeIndex_allones rawHash h 0 (Or.inl (by decide))
  · intro layers h64 hsmall
    apply reduceToTreeIndex_allones rawHash h layers
    right
    have hmod : layers % (2 ^ 64 : Int) = layers :=
      Int.emod_eq_of_lt (by omega) (by omega)
    omega

theorem reduceToTreeIndex_degenerate_layers_witness :
    3 < 2 ^ 64 ∧ reduceToTreeIndex 3 0 = 3 ∧ reduceToTreeIndex 3 64 = 3 :=
  ⟨by decide,
   (reduceToTreeIndex_degenerate_layers 3 (by decide)).1,
   (reduceToTreeIndex_degenerate_layers 3 (by decide)).2 64 (by decide)
     (by decide)⟩
